import Mathlib

/-!
Verification of the `speed` plugin (src/src/plugin.ts): a throughput-measuring
HTTP module with a random-content download streamer and a byte-counting upload
sink.  Each handler is embedded as a pure state machine; event handlers become
a `step` function folded over an arbitrary list of trigger events, so that
race/ordering claims become universally quantified statements over event lists.
-/

namespace Speed

/-! ## Size policy (plugin.ts lines 5-10 and 41-44) -/

/-- Value of a run of ASCII decimal digits, accumulated left to right. -/
def digitsToNat (ds : List Char) : Nat :=
  ds.foldl (fun a c => a * 10 + (c.toNat - 48)) 0

/-- Whitespace skipped by JavaScript `Number.parseInt` (the common ASCII
whitespace characters; the plugin's inputs contain no exotic Unicode space). -/
def isJsSpace (c : Char) : Bool :=
  c = ' ' || c = '\t' || c = '\n' || c = '\r' || c = '\x0b' || c = '\x0c'

/-- Longest ASCII-digit run at the front of the input; `none` when the run is
empty (JavaScript `NaN`). -/
def parseDigits (cs : List Char) : Option Nat :=
  let ds := cs.takeWhile Char.isDigit
  if ds.isEmpty then none else some (digitsToNat ds)

/-- Result of `Number.parseInt`: a JavaScript number, which is `NaN`
(no digits at all), `±Infinity` (digit value too large for a double), or a
finite value. -/
inductive JsNum where
  | nan : JsNum
  | posInf : JsNum
  | negInf : JsNum
  | int : Int → JsNum
deriving DecidableEq

/-- Smallest magnitude at which an exact integer rounds to `±Infinity` as an
IEEE-754 double (round to nearest, ties to even): the midpoint
`2^1024 - 2^970` above the largest finite double `2^1024 - 2^971` rounds up
and out of range.  A decimal numeral of 309 or more significant digits
exceeds it. -/
def jsOverflow : Nat := 2 ^ 1024 - 2 ^ 970

/-- JavaScript `Number.parseInt(s, 10)`: skip leading whitespace, read an
optional sign, then the longest decimal-digit run; no digits at all gives
`NaN`, a digit value of magnitude at least `jsOverflow` gives `±Infinity`
(the double overflows), and any other value is carried exactly.  Finite
values below `2^53` are exactly those of the real double; larger finite
values are kept exact rather than rounded to the nearest double, which
cannot change their sign, nullity, or order relative to any bound below
`2^53` — all the plugin ever compares them against. -/
def jsParseInt (s : String) : JsNum :=
  let signed : Bool → Option Nat → JsNum := fun neg p =>
    match p with
    | none => JsNum.nan
    | some n =>
      if jsOverflow ≤ n then (if neg then JsNum.negInf else JsNum.posInf)
      else JsNum.int (if neg then -(n : Int) else (n : Int))
  match s.toList.dropWhile isJsSpace with
  | '-' :: t => signed true (parseDigits t)
  | '+' :: t => signed false (parseDigits t)
  | cs => signed false (parseDigits cs)

/-- `envInt` (plugin.ts lines 5-10): an unset or empty variable falls back;
then `Number.isFinite(n) && n > 0 ? n : fallback`, so `NaN`, `±Infinity`
(an overflowing numeral) and non-positive values all fall back. -/
def envInt (raw : Option String) (fallback : Int) : Int :=
  match raw with
  | none => fallback
  | some r =>
    if r = "" then fallback
    else
      match jsParseInt r with
      | JsNum.int n => if 0 < n then n else fallback
      | _ => fallback

/-- Size resolution of `GET /download` (plugin.ts lines 41-44):
`qSize = String(req.query.size ?? "")`, `size = parseInt(qSize, 10)`, then
`if (!Number.isFinite(size) || size <= 0) size = DEFAULT` — so `NaN` and
`±Infinity` (an overflowing numeral) take the default, exactly like
non-positive values — and finally clamp down to `MAXD`. -/
def resolveDownloadSize (q : Option String) (DEFAULT MAXD : Int) : Int :=
  let qSize := q.getD ""
  let size :=
    match jsParseInt qSize with
    | JsNum.int n => if n ≤ 0 then DEFAULT else n
    | _ => DEFAULT
  if MAXD < size then MAXD else size

/-! ## Upload accountant (plugin.ts lines 120-183)

The `POST /upload` handler is a state machine driven by the stream events
`aborted`, `data`, `end`, `error`.  `finishOnce` is the finalization guard
(lines 128-133).  `req.pause()` and `req.destroy()` are modelled by flags;
the Node stream contract that a paused or destroyed request delivers no
further `data` events is encoded in the `data` case of `stepU`. -/

/-- Trigger events of one upload session. -/
inductive UEv where
  | abortedE : UEv
  | data : Nat → UEv
  | endE : UEv
  | errorE : UEv
deriving DecidableEq

/-- Terminal outcome recorded at finalization (one per `finishOnce` body). -/
inductive UOut where
  | completed : UOut
  | oversized : UOut
  | abortedO : UOut
  | erroredO : UOut
deriving DecidableEq

/-- Response actually sent on the wire: `200 {bytes, millis}`,
`413 {message: "Payload too large", max}`, or
`500 {message: "Failed to receive upload"}`. -/
inductive UResp where
  | r200 : Nat → UResp
  | r413 : Nat → UResp
  | r500 : UResp
deriving DecidableEq

/-- Log lines of one upload session (payload is the `bytes` counter where the
source interpolates it). -/
inductive ULog where
  | startL : ULog
  | abortL : ULog
  | tooLargeL : Nat → ULog
  | endL : Nat → ULog
  | errorL : ULog
deriving DecidableEq

/-- Mutable state of one upload session. -/
structure UState where
  bytes : Nat
  finished : Bool
  paused : Bool
  destroyed : Bool
  outcomes : List UOut
  responses : List UResp
  log : List ULog
deriving DecidableEq

/-- `finishOnce` (plugin.ts lines 129-133): run `f` only on the first call. -/
def finishOnce (s : UState) (f : UState → UState) : UState :=
  if s.finished then s else f { s with finished := true }

/-- One event-handler invocation (plugin.ts lines 135-178).  The `data` case
is lines 141-160: increment `bytes`, and on `bytes > MAX` pause the request,
then (inside the guard) log, send 413, and destroy the connection.  A paused
or destroyed request receives no further `data` events (stream contract). -/
def stepU (MAX : Nat) (s : UState) : UEv → UState
  | .abortedE =>
      finishOnce s fun t =>
        { t with log := t.log ++ [ULog.abortL], outcomes := t.outcomes ++ [UOut.abortedO] }
  | .data len =>
      if s.paused || s.destroyed then s
      else
        let s1 := { s with bytes := s.bytes + len }
        if MAX < s1.bytes then
          let s2 := { s1 with paused := true }
          finishOnce s2 fun t =>
            { t with
              log := t.log ++ [ULog.tooLargeL t.bytes],
              responses := t.responses ++ [UResp.r413 MAX],
              destroyed := true,
              outcomes := t.outcomes ++ [UOut.oversized] }
        else s1
  | .endE =>
      finishOnce s fun t =>
        { t with
          log := t.log ++ [ULog.endL t.bytes],
          responses := t.responses ++ [UResp.r200 t.bytes],
          outcomes := t.outcomes ++ [UOut.completed] }
  | .errorE =>
      finishOnce s fun t =>
        { t with
          log := t.log ++ [ULog.errorL],
          responses := t.responses ++ [UResp.r500],
          outcomes := t.outcomes ++ [UOut.erroredO] }

/-- State right after the handler body ran (lines 122-126): zero bytes, not
finished, start line logged. -/
def initU : UState :=
  { bytes := 0, finished := false, paused := false, destroyed := false,
    outcomes := [], responses := [], log := [ULog.startL] }

/-- One upload session: the handlers, folded over an arbitrary event order. -/
def runU (MAX : Nat) (evs : List UEv) : UState :=
  evs.foldl (stepU MAX) initU

/-- Running total after the minimal ceiling-breaching prefix: fragments are
added one at a time and accumulation stops with the first fragment that brings
the total above `MAX`. -/
def firstBreach (MAX : Nat) : Nat → List Nat → Nat
  | acc, [] => acc
  | acc, c :: cs => if MAX < acc + c then acc + c else firstBreach MAX (acc + c) cs

/-! ## Download generator (plugin.ts lines 39-114)

The `GET /download` handler declares `Content-Length = total` up front
(line 57), then runs the `writeMore` loop (lines 88-107) under flow control:
`res.write` returns whether the consumer buffer still has room, and on a
`false` result the loop registers a one-shot `drain` handler and stops.  The
successive results of `res.write` are modelled by a `Bool` oracle carried in
the state (exhausted oracle means "never saturated").  Chunk contents are
random filler; only chunk lengths matter, so `chunks` records the lengths. -/

/-- Log lines of one download session. -/
inductive DLog where
  | startL : DLog
  | endL : DLog
  | abortL : DLog
  | errorL : DLog
deriving DecidableEq

/-- Trigger events of one download session: `finish`, `aborted`, `close`,
`error` on the response/request plus the `drain` notification. -/
inductive DEv where
  | finish : DEv
  | abortedE : DEv
  | close : DEv
  | errorE : DEv
  | drain : DEv
deriving DecidableEq

/-- Mutable state of one download session.  `total` is the value declared in
the `Content-Length` header (line 57); `writableEnded` is `res.writableEnded`,
set once `res.end()` has been called; `awaitingDrain` records that a one-shot
`drain` handler is registered (line 100). -/
structure DState where
  total : Nat
  remaining : Nat
  ended : Bool
  writableEnded : Bool
  awaitingDrain : Bool
  oracle : List Bool
  chunks : List Nat
  log : List DLog
deriving DecidableEq

/-- Chunk size of the write loop (line 46): 64 KiB. -/
def CHUNK : Nat := 64 * 1024

/-- `endOnce` (lines 61-66): first call logs the end line and marks the
session ended; later calls are no-ops. -/
def endOnce (s : DState) : DState :=
  if s.ended then s
  else { s with ended := true, log := s.log ++ [DLog.endL] }

/-- `abortOnce` (lines 68-75): a no-op once ended, and a no-op when
`remaining <= 0 || res.writableEnded`; otherwise logs the abort line and
marks the session ended.  `remaining` is a `Nat` because the loop only ever
subtracts `min(CHUNK, remaining)`, so the JavaScript number never goes
negative and `remaining <= 0` is `remaining = 0`. -/
def abortOnce (s : DState) : DState :=
  if s.ended then s
  else if s.remaining = 0 || s.writableEnded then s
  else { s with ended := true, log := s.log ++ [DLog.abortL] }

/-- Effect of `res.end()` (line 105) on the state. -/
def resEnd (s : DState) : DState := { s with writableEnded := true }

/-- The write loop `writeMore` (lines 88-107): return at once if ended;
while bytes remain, emit a chunk of `min(CHUNK, remaining)` and consume one
oracle entry as the result of `res.write`; on a `false` result register the
drain handler and stop; once no bytes remain, call `res.end()` and
`endOnce()`. -/
def writeMore (s : DState) : DState :=
  if s.ended then s
  else if s.remaining = 0 then endOnce (resEnd s)
  else
    let len := min CHUNK s.remaining
    let ok := s.oracle.headD true
    let s1 := { s with
      remaining := s.remaining - len,
      chunks := s.chunks ++ [len],
      oracle := s.oracle.tail }
    if ok then writeMore s1
    else { s1 with awaitingDrain := true }
termination_by s.remaining
decreasing_by
  simp only [CHUNK]
  omega

/-- One event-handler invocation (lines 77-86 and 100): `finish` runs
`endOnce`; `aborted` runs `abortOnce`; `close` runs `abortOnce` only while
`remaining > 0`; `error` logs the error line and runs `abortOnce`; `drain`
resumes `writeMore` when (and only when) a drain handler is registered. -/
def stepD (s : DState) : DEv → DState
  | .finish => endOnce s
  | .abortedE => abortOnce s
  | .close => if s.remaining ≠ 0 then abortOnce s else s
  | .errorE => abortOnce { s with log := s.log ++ [DLog.errorL] }
  | .drain => if s.awaitingDrain then writeMore { s with awaitingDrain := false } else s

/-- State after header setup (lines 46-59): `remaining = total = size`, start
line logged, nothing written yet. -/
def initD (size : Nat) (oracle : List Bool) : DState :=
  { total := size, remaining := size, ended := false, writableEnded := false,
    awaitingDrain := false, oracle := oracle, chunks := [], log := [DLog.startL] }

/-- One download session: the synchronous `writeMore()` call of line 109
followed by the handlers, folded over an arbitrary event order. -/
def runD (size : Nat) (oracle : List Bool) (evs : List DEv) : DState :=
  evs.foldl stepD (writeMore (initD size oracle))

/-- Terminal log lines: the `endOnce` end line and the `abortOnce` abort
line.  The error line of the `error` handler (line 83) is informational, not
a terminal transition. -/
def isTerminalD : DLog → Bool
  | .endL => true
  | .abortL => true
  | _ => false

/-- Number of terminal log lines emitted so far in a download session. -/
def terminalCount (s : DState) : Nat :=
  (s.log.filter isTerminalD).length

/-- Chunk lengths of a completed download of `n` bytes: repeatedly
`min(CHUNK, remaining)` until nothing remains (the per-chunk rule of the
`writeMore` loop, line 92). -/
def chunkList (n : Nat) : List Nat :=
  if n = 0 then [] else min CHUNK n :: chunkList (n - min CHUNK n)
termination_by n
decreasing_by
  simp only [CHUNK]
  omega

/-! ## Session invariants -/

/-- Finalization invariant of an upload session: the outcome list has exactly
one entry once the guard flag is set and none before, and at most one
response has been sent. -/
def UInv (s : UState) : Prop :=
  s.outcomes.length = (if s.finished then 1 else 0) ∧
  s.responses.length ≤ s.outcomes.length

/-- Terminal-transition invariant of a download session: exactly one terminal
log line once ended, none before. -/
def DInv (s : DState) : Prop :=
  terminalCount s = (if s.ended then 1 else 0)

/-- Write-loop accounting invariant: the chunks already emitted followed by
the chunks still owed form exactly the chunk decomposition of the declared
total. -/
def ChunkInv (s : DState) : Prop :=
  s.chunks ++ chunkList s.remaining = chunkList s.total

/-! ## Upload lemmas -/

lemma finishOnce_UInv (s : UState) (f : UState → UState)
    (hf : ∀ t, (f t).outcomes.length = t.outcomes.length + 1 ∧
      (f t).responses.length ≤ t.responses.length + 1 ∧
      (f t).finished = t.finished)
    (h : UInv s) : UInv (finishOnce s f) := by
  obtain ⟨h1, h2⟩ := h
  unfold finishOnce
  split
  · exact ⟨h1, h2⟩
  · rename_i hfin
    obtain ⟨a1, a2, a3⟩ := hf { s with finished := true }
    have hout : s.outcomes.length = 0 := by simp [hfin] at h1; simpa using h1
    constructor
    · rw [a1, a3]
      simp [hout]
    · rw [a1]
      simp only at a2 ⊢
      omega

lemma stepU_UInv (MAX : Nat) (s : UState) (e : UEv) (h : UInv s) :
    UInv (stepU MAX s e) := by
  cases e with
  | abortedE =>
      simp only [stepU]
      refine finishOnce_UInv s _ (fun t => ⟨?_, ?_, ?_⟩) h <;> simp
  | endE =>
      simp only [stepU]
      refine finishOnce_UInv s _ (fun t => ⟨?_, ?_, ?_⟩) h <;> simp
  | errorE =>
      simp only [stepU]
      refine finishOnce_UInv s _ (fun t => ⟨?_, ?_, ?_⟩) h <;> simp
  | data len =>
      simp only [stepU]
      split
      · exact h
      · split
        · refine finishOnce_UInv _ _ (fun t => ⟨?_, ?_, ?_⟩) ⟨h.1, h.2⟩ <;> simp
        · exact ⟨h.1, h.2⟩

lemma foldl_stepU_UInv (MAX : Nat) (evs : List UEv) (s : UState) (h : UInv s) :
    UInv (evs.foldl (stepU MAX) s) := by
  induction evs generalizing s with
  | nil => exact h
  | cons e rest ih => exact ih _ (stepU_UInv MAX s e h)

lemma stepU_finished_mono (MAX : Nat) (s : UState) (e : UEv)
    (h : s.finished = true) : (stepU MAX s e).finished = true := by
  cases e with
  | abortedE => simp [stepU, finishOnce, h]
  | endE => simp [stepU, finishOnce, h]
  | errorE => simp [stepU, finishOnce, h]
  | data len =>
      simp only [stepU]
      split
      · exact h
      · split
        · simp [finishOnce, h]
        · exact h

lemma foldl_stepU_finished_mono (MAX : Nat) (evs : List UEv) (s : UState)
    (h : s.finished = true) : (evs.foldl (stepU MAX) s).finished = true := by
  induction evs generalizing s with
  | nil => exact h
  | cons e rest ih => exact ih _ (stepU_finished_mono MAX s e h)

lemma stepU_finalizer (MAX : Nat) (s : UState) (e : UEv)
    (h : e = UEv.abortedE ∨ e = UEv.endE ∨ e = UEv.errorE) :
    (stepU MAX s e).finished = true := by
  rcases h with h | h | h <;> subst h <;>
    simp only [stepU, finishOnce] <;> split <;> simp_all

lemma runU_finished_of_finalizer (MAX : Nat) (evs : List UEv)
    (h : UEv.endE ∈ evs ∨ UEv.abortedE ∈ evs ∨ UEv.errorE ∈ evs) :
    (runU MAX evs).finished = true := by
  have key : ∀ e, e ∈ evs → (e = UEv.abortedE ∨ e = UEv.endE ∨ e = UEv.errorE) →
      (runU MAX evs).finished = true := by
    intro e he hfin
    obtain ⟨l1, l2, rfl⟩ := List.append_of_mem he
    unfold runU
    rw [List.foldl_append, List.foldl_cons]
    exact foldl_stepU_finished_mono MAX l2 _ (stepU_finalizer MAX _ e hfin)
  rcases h with h | h | h
  · exact key _ h (Or.inr (Or.inl rfl))
  · exact key _ h (Or.inl rfl)
  · exact key _ h (Or.inr (Or.inr rfl))

lemma runData_clean (MAX : Nat) (chunks : List Nat) (s : UState)
    (hp : s.paused = false) (hd : s.destroyed = false)
    (hb : s.bytes + chunks.sum ≤ MAX) :
    (chunks.map UEv.data).foldl (stepU MAX) s = { s with bytes := s.bytes + chunks.sum } := by
  induction chunks generalizing s with
  | nil => simp
  | cons c cs ih =>
      simp only [List.map_cons, List.foldl_cons, List.sum_cons]
      have hstep : stepU MAX s (UEv.data c) = { s with bytes := s.bytes + c } := by
        simp only [stepU, hp, hd, Bool.or_self, Bool.false_eq_true, if_false]
        split
        · rename_i hlt
          simp only [List.sum_cons] at hb
          omega
        · rfl
      rw [hstep]
      rw [ih { s with bytes := s.bytes + c } hp hd (by simp only [List.sum_cons] at hb ⊢; omega)]
      simp only [List.sum_cons]
      congr 1
      omega

lemma stepU_bytes_mono (MAX : Nat) (s : UState) (e : UEv) :
    s.bytes ≤ (stepU MAX s e).bytes := by
  cases e with
  | abortedE => simp only [stepU, finishOnce]; split <;> simp
  | endE => simp only [stepU, finishOnce]; split <;> simp
  | errorE => simp only [stepU, finishOnce]; split <;> simp
  | data len =>
      simp only [stepU]
      split
      · exact le_refl _
      · split
        · simp only [finishOnce]
          split <;> simp
        · simp

lemma runData_destroyed (MAX : Nat) (chunks : List Nat) (s : UState)
    (hd : s.destroyed = true) :
    (chunks.map UEv.data).foldl (stepU MAX) s = s := by
  induction chunks with
  | nil => rfl
  | cons c cs ih =>
      simp only [List.map_cons, List.foldl_cons]
      have hstep : stepU MAX s (UEv.data c) = s := by
        simp [stepU, hd]
      rw [hstep, ih]

lemma runData_breach (MAX : Nat) (chunks : List Nat) (s : UState)
    (hf : s.finished = false) (hp : s.paused = false) (hd : s.destroyed = false)
    (hle : s.bytes ≤ MAX) (hgt : MAX < s.bytes + chunks.sum) :
    (chunks.map UEv.data).foldl (stepU MAX) s =
      { s with
        bytes := firstBreach MAX s.bytes chunks,
        finished := true, paused := true, destroyed := true,
        log := s.log ++ [ULog.tooLargeL (firstBreach MAX s.bytes chunks)],
        responses := s.responses ++ [UResp.r413 MAX],
        outcomes := s.outcomes ++ [UOut.oversized] } := by
  induction chunks generalizing s with
  | nil => simp at hgt; omega
  | cons c cs ih =>
      simp only [List.map_cons, List.foldl_cons]
      by_cases hbr : MAX < s.bytes + c
      · have hstep : stepU MAX s (UEv.data c) =
            { s with
              bytes := s.bytes + c,
              finished := true, paused := true, destroyed := true,
              log := s.log ++ [ULog.tooLargeL (s.bytes + c)],
              responses := s.responses ++ [UResp.r413 MAX],
              outcomes := s.outcomes ++ [UOut.oversized] } := by
          simp only [stepU, hp, hd, Bool.or_self, Bool.false_eq_true, if_false]
          rw [if_pos hbr]
          simp [finishOnce, hf]
        rw [hstep, runData_destroyed MAX cs _ rfl]
        have hfb : firstBreach MAX s.bytes (c :: cs) = s.bytes + c := by
          simp [firstBreach, hbr]
        rw [hfb]
      · have hstep : stepU MAX s (UEv.data c) = { s with bytes := s.bytes + c } := by
          simp only [stepU, hp, hd, Bool.or_self, Bool.false_eq_true, if_false]
          rw [if_neg hbr]
        have hfb : firstBreach MAX s.bytes (c :: cs) = firstBreach MAX (s.bytes + c) cs := by
          simp [firstBreach, hbr]
        rw [hstep, hfb]
        rw [ih { s with bytes := s.bytes + c } hf hp hd
          (by show s.bytes + c ≤ MAX; omega)
          (by simp only [List.sum_cons] at hgt
              show MAX < s.bytes + c + cs.sum
              omega)]

lemma firstBreach_decomp (MAX : Nat) (chunks : List Nat) (acc : Nat)
    (hle : acc ≤ MAX) (hgt : MAX < acc + chunks.sum) :
    ∃ pre c rest, chunks = pre ++ c :: rest ∧
      acc + pre.sum ≤ MAX ∧ MAX < acc + pre.sum + c ∧
      firstBreach MAX acc chunks = acc + pre.sum + c := by
  induction chunks generalizing acc with
  | nil => simp at hgt; omega
  | cons c cs ih =>
      by_cases hbr : MAX < acc + c
      · exact ⟨[], c, cs, rfl, by simpa using hle, by simpa using hbr,
          by simp [firstBreach, hbr]⟩
      · obtain ⟨pre, d, rest, hsplit, h1, h2, h3⟩ :=
          ih (acc + c) (by omega) (by simp only [List.sum_cons] at hgt; omega)
        refine ⟨c :: pre, d, rest, by simp [hsplit], by simp; omega, by simp; omega, ?_⟩
        rw [show firstBreach MAX acc (c :: cs) = firstBreach MAX (acc + c) cs from
          by simp [firstBreach, hbr]]
        rw [h3]
        simp
        omega

/-! ## Download lemmas -/

lemma endOnce_DInv (s : DState) (h : DInv s) : DInv (endOnce s) := by
  unfold endOnce
  split
  · exact h
  · rename_i he
    unfold DInv terminalCount at h ⊢
    simp only [he, Bool.false_eq_true, if_false] at h
    simp [List.filter_append, isTerminalD, h]

lemma abortOnce_DInv (s : DState) (h : DInv s) : DInv (abortOnce s) := by
  unfold abortOnce
  split
  · exact h
  · split
    · exact h
    · rename_i he hg
      unfold DInv terminalCount at h ⊢
      simp only [he, Bool.false_eq_true, if_false] at h
      simp [List.filter_append, isTerminalD, h]

lemma writeMore_DInv (s : DState) (h : DInv s) : DInv (writeMore s) := by
  induction s using writeMore.induct with
  | case1 s he => rw [writeMore, if_pos he]; exact h
  | case2 s he h0 =>
      rw [writeMore, if_neg he, if_pos h0]
      exact endOnce_DInv _ h
  | case3 s he h0 len ok s1 hok ih =>
      rw [writeMore, if_neg he, if_neg h0]
      dsimp only
      split
      · exact ih h
      · rename_i hc
        exact absurd hok hc
  | case4 s he h0 ok hok =>
      rw [writeMore, if_neg he, if_neg h0]
      dsimp only
      split
      · rename_i hc
        exact absurd hc hok
      · exact h

lemma stepD_DInv (s : DState) (e : DEv) (h : DInv s) : DInv (stepD s e) := by
  cases e with
  | finish => exact endOnce_DInv s h
  | abortedE => exact abortOnce_DInv s h
  | close =>
      simp only [stepD]
      split
      · exact abortOnce_DInv s h
      · exact h
  | errorE =>
      refine abortOnce_DInv _ ?_
      unfold DInv terminalCount at h ⊢
      simp [List.filter_append, isTerminalD]
      simpa [terminalCount] using h
  | drain =>
      simp only [stepD]
      split
      · exact writeMore_DInv _ h
      · exact h

lemma runD_DInv (size : Nat) (oracle : List Bool) (evs : List DEv) :
    DInv (runD size oracle evs) := by
  have hinit : DInv (initD size oracle) := by
    unfold DInv terminalCount initD
    simp [isTerminalD]
  have hw : DInv (writeMore (initD size oracle)) := writeMore_DInv _ hinit
  unfold runD
  generalize writeMore (initD size oracle) = s at hw
  induction evs generalizing s with
  | nil => exact hw
  | cons e rest ih => exact ih _ (stepD_DInv s e hw)

lemma chunkList_zero : chunkList 0 = [] := by
  rw [chunkList]
  rfl

lemma chunkList_cons (n : Nat) (h : n ≠ 0) :
    chunkList n = min CHUNK n :: chunkList (n - min CHUNK n) := by
  rw [chunkList, if_neg h]

lemma chunkList_sum (n : Nat) : (chunkList n).sum = n := by
  induction n using chunkList.induct with
  | case1 => rw [chunkList_zero]; rfl
  | case2 n h ih =>
      rw [chunkList_cons n h, List.sum_cons, ih]
      have := Nat.min_le_right CHUNK n
      omega

lemma chunkList_mem (n : Nat) (c : Nat) (h : c ∈ chunkList n) :
    1 ≤ c ∧ c ≤ CHUNK := by
  induction n using chunkList.induct with
  | case1 =>
      rw [chunkList_zero] at h
      exact absurd h (List.not_mem_nil c)
  | case2 n h0 ih =>
      rw [chunkList_cons n h0] at h
      rcases List.mem_cons.mp h with hc | hc
      · subst hc
        constructor
        · have h1 : 1 ≤ CHUNK := by simp [CHUNK]
          have h2 : 1 ≤ n := Nat.one_le_iff_ne_zero.mpr h0
          omega
        · exact Nat.min_le_left CHUNK n
      · exact ih hc

lemma endOnce_fields (s : DState) :
    (endOnce s).chunks = s.chunks ∧ (endOnce s).remaining = s.remaining ∧
    (endOnce s).total = s.total := by
  unfold endOnce; split <;> exact ⟨rfl, rfl, rfl⟩

lemma abortOnce_fields (s : DState) :
    (abortOnce s).chunks = s.chunks ∧ (abortOnce s).remaining = s.remaining ∧
    (abortOnce s).total = s.total := by
  unfold abortOnce; split
  · exact ⟨rfl, rfl, rfl⟩
  · split <;> exact ⟨rfl, rfl, rfl⟩

lemma writeMore_ChunkInv (s : DState) (h : ChunkInv s) : ChunkInv (writeMore s) := by
  induction s using writeMore.induct with
  | case1 s he => rw [writeMore, if_pos he]; exact h
  | case2 s he h0 =>
      rw [writeMore, if_neg he, if_pos h0]
      unfold ChunkInv
      rw [(endOnce_fields _).1, (endOnce_fields _).2.1, (endOnce_fields _).2.2]
      exact h
  | case3 s he h0 len ok s1 hok ih =>
      rw [writeMore, if_neg he, if_neg h0]
      dsimp only
      split
      · refine ih ?_
        unfold ChunkInv at h ⊢
        show (s.chunks ++ [min CHUNK s.remaining]) ++
          chunkList (s.remaining - min CHUNK s.remaining) = chunkList s.total
        rw [List.append_assoc, List.singleton_append, ← chunkList_cons s.remaining h0]
        exact h
      · rename_i hc
        exact absurd hok hc
  | case4 s he h0 ok hok =>
      rw [writeMore, if_neg he, if_neg h0]
      dsimp only
      split
      · rename_i hc
        exact absurd hc hok
      · unfold ChunkInv at h ⊢
        show (s.chunks ++ [min CHUNK s.remaining]) ++
          chunkList (s.remaining - min CHUNK s.remaining) = chunkList s.total
        rw [List.append_assoc, List.singleton_append, ← chunkList_cons s.remaining h0]
        exact h

lemma stepD_ChunkInv (s : DState) (e : DEv) (h : ChunkInv s) : ChunkInv (stepD s e) := by
  cases e with
  | finish =>
      show ChunkInv (endOnce s)
      unfold ChunkInv
      rw [(endOnce_fields _).1, (endOnce_fields _).2.1, (endOnce_fields _).2.2]
      exact h
  | abortedE =>
      show ChunkInv (abortOnce s)
      unfold ChunkInv
      rw [(abortOnce_fields _).1, (abortOnce_fields _).2.1, (abortOnce_fields _).2.2]
      exact h
  | close =>
      simp only [stepD]
      split
      · unfold ChunkInv
        rw [(abortOnce_fields _).1, (abortOnce_fields _).2.1, (abortOnce_fields _).2.2]
        exact h
      · exact h
  | errorE =>
      show ChunkInv (abortOnce { s with log := s.log ++ [DLog.errorL] })
      unfold ChunkInv
      rw [(abortOnce_fields _).1, (abortOnce_fields _).2.1, (abortOnce_fields _).2.2]
      exact h
  | drain =>
      simp only [stepD]
      split
      · exact writeMore_ChunkInv _ h
      · exact h

lemma writeMore_total (s : DState) : (writeMore s).total = s.total := by
  induction s using writeMore.induct with
  | case1 s he => rw [writeMore, if_pos he]
  | case2 s he h0 =>
      rw [writeMore, if_neg he, if_pos h0]
      exact (endOnce_fields _).2.2
  | case3 s he h0 len ok s1 hok ih =>
      rw [writeMore, if_neg he, if_neg h0]
      dsimp only
      split
      · exact ih
      · rename_i hc; exact absurd hok hc
  | case4 s he h0 ok hok =>
      rw [writeMore, if_neg he, if_neg h0]
      dsimp only
      split
      · rename_i hc; exact absurd hc hok
      · rfl

lemma stepD_total (s : DState) (e : DEv) : (stepD s e).total = s.total := by
  cases e with
  | finish => exact (endOnce_fields s).2.2
  | abortedE => exact (abortOnce_fields s).2.2
  | close =>
      simp only [stepD]
      split
      · exact (abortOnce_fields s).2.2
      · rfl
  | errorE => exact (abortOnce_fields _).2.2
  | drain =>
      simp only [stepD]
      split
      · exact writeMore_total _
      · rfl

lemma runD_total (size : Nat) (oracle : List Bool) (evs : List DEv) :
    (runD size oracle evs).total = size := by
  unfold runD
  have hw : (writeMore (initD size oracle)).total = size := writeMore_total _
  generalize writeMore (initD size oracle) = s at hw
  induction evs generalizing s with
  | nil => exact hw
  | cons e rest ih => exact ih _ ((stepD_total s e).trans hw)

lemma runD_ChunkInv (size : Nat) (oracle : List Bool) (evs : List DEv) :
    ChunkInv (runD size oracle evs) := by
  unfold runD
  have hw : ChunkInv (writeMore (initD size oracle)) :=
    writeMore_ChunkInv _ (by unfold ChunkInv initD; simp)
  generalize writeMore (initD size oracle) = s at hw
  induction evs generalizing s with
  | nil => exact hw
  | cons e rest ih => exact ih _ (stepD_ChunkInv s e hw)

lemma endOnce_awaitingDrain (s : DState) :
    (endOnce s).awaitingDrain = s.awaitingDrain := by
  unfold endOnce; split <;> rfl

lemma take_oracle_step (l : List Bool) (k : Nat)
    (hh : l.headD true = true)
    (ht : l.tail.take (k + 1) = List.replicate k true ++ [false]) :
    l.take (k + 1 + 1) = List.replicate (k + 1) true ++ [false] := by
  cases l with
  | nil => simp at ht
  | cons b t =>
      have hb : b = true := hh
      subst hb
      simp only [List.tail_cons] at ht
      rw [List.take_succ_cons, ht, List.replicate_succ, List.cons_append]

lemma take_one_false (l : List Bool) (hh : l.headD true = false) :
    l.take 1 = [false] := by
  cases l with
  | nil => exact Bool.noConfusion hh
  | cons b t => rw [show b = false from hh]; rfl

lemma writeMore_saturation (s : DState) (hnd : s.awaitingDrain = false)
    (hsat : (writeMore s).awaitingDrain = true) :
    ∃ k, (writeMore s).chunks.length = s.chunks.length + (k + 1) ∧
      s.oracle.take (k + 1) = List.replicate k true ++ [false] := by
  induction s using writeMore.induct with
  | case1 s he =>
      rw [writeMore, if_pos he] at hsat
      rw [hnd] at hsat
      exact Bool.noConfusion hsat
  | case2 s he h0 =>
      rw [writeMore, if_neg he, if_pos h0] at hsat
      rw [endOnce_awaitingDrain, resEnd, hnd] at hsat
      exact Bool.noConfusion hsat
  | case3 s he h0 len ok s1 hok ih =>
      rw [writeMore, if_neg he, if_neg h0] at hsat ⊢
      dsimp only at hsat ⊢
      rw [if_pos hok] at hsat ⊢
      have hnd1 : s1.awaitingDrain = false := hnd
      obtain ⟨k, hlen, htake⟩ := ih hnd1 hsat
      refine ⟨k + 1, ?_, ?_⟩
      · show (writeMore s1).chunks.length = s.chunks.length + (k + 1 + 1)
        rw [hlen]
        show (s.chunks ++ [len]).length + (k + 1) = s.chunks.length + (k + 1 + 1)
        rw [List.length_append]
        simp only [List.length_cons, List.length_nil]
        omega
      · exact take_oracle_step s.oracle k hok htake
  | case4 s he h0 ok hok =>
      rw [writeMore, if_neg he, if_neg h0] at hsat ⊢
      dsimp only at hsat ⊢
      rw [if_neg hok] at hsat ⊢
      refine ⟨0, ?_, ?_⟩
      · show (s.chunks ++ [CHUNK ⊓ s.remaining]).length = s.chunks.length + (0 + 1)
        rw [List.length_append]
        rfl
      · refine take_one_false s.oracle ?_
        have hok2 : ¬(s.oracle.headD true = true) := hok
        cases hb : s.oracle.headD true
        · rfl
        · exact absurd hb hok2

lemma abortOnce_noop (s : DState)
    (hdone : s.remaining = 0 ∨ s.writableEnded = true) : abortOnce s = s := by
  unfold abortOnce
  split
  · rfl
  · split
    · rfl
    · rename_i h1 h2
      rcases hdone with hd | hd <;> simp [hd] at h2

/-! ## Claims -/

/-- Claim C1: for every download session, regardless of which trigger events
fire (finish, peer abort, close with bytes outstanding, response error) and
in whatever order, at most one terminal transition occurs — the number of
terminal log lines is 1 exactly when the session has ended and 0 otherwise,
and the end line and the abort line never both appear (in particular, the
two abort-detection routes collapse to a single Aborted transition even if
both fire). -/
theorem C1_single_terminal_transition (size : Nat) (oracle : List Bool) (evs : List DEv) :
    terminalCount (runD size oracle evs) =
      (if (runD size oracle evs).ended then 1 else 0) ∧
    ¬(DLog.endL ∈ (runD size oracle evs).log ∧ DLog.abortL ∈ (runD size oracle evs).log) := by
  have hinv := runD_DInv size oracle evs
  refine ⟨hinv, ?_⟩
  rintro ⟨he, ha⟩
  have hcnt : terminalCount (runD size oracle evs) ≤ 1 := by
    rw [hinv]; split <;> omega
  have hef : DLog.endL ∈ (runD size oracle evs).log.filter isTerminalD :=
    List.mem_filter.mpr ⟨he, rfl⟩
  have haf : DLog.abortL ∈ (runD size oracle evs).log.filter isTerminalD :=
    List.mem_filter.mpr ⟨ha, rfl⟩
  unfold terminalCount at hcnt
  set l := (runD size oracle evs).log.filter isTerminalD with hl
  match hlen : l.length, hcnt with
  | 0, _ =>
      rw [List.length_eq_zero] at hlen
      rw [hlen] at hef
      exact absurd hef (List.not_mem_nil _)
  | 1, _ =>
      rw [List.length_eq_one] at hlen
      obtain ⟨a, hla⟩ := hlen
      rw [hla] at hef haf
      have h1 : DLog.endL = a := List.mem_singleton.mp hef
      have h2 : DLog.abortL = a := List.mem_singleton.mp haf
      rw [← h1] at h2
      exact DLog.noConfusion h2

/-- Witness for C1 at a concrete session: a 3-byte download whose only event
is `finish`. -/
theorem C1_single_terminal_transition_witness :
    terminalCount (runD 3 [] [DEv.finish]) =
      (if (runD 3 [] [DEv.finish]).ended then 1 else 0) ∧
    ¬(DLog.endL ∈ (runD 3 [] [DEv.finish]).log ∧
      DLog.abortL ∈ (runD 3 [] [DEv.finish]).log) :=
  C1_single_terminal_transition 3 [] [DEv.finish]

/-- Claim C2: for every upload session, at most one outcome and at most one
response is produced no matter which events fire or in what order, and once
any of the always-finalizing events (`end`, `aborted`, `error`) has fired,
exactly one outcome has been produced — the first event to reach the
finalization guard wins and every later attempt is a no-op. -/
theorem C2_upload_finalization_guard (MAX : Nat) (evs : List UEv) :
    (runU MAX evs).outcomes.length ≤ 1 ∧
    (runU MAX evs).responses.length ≤ 1 ∧
    ((UEv.endE ∈ evs ∨ UEv.abortedE ∈ evs ∨ UEv.errorE ∈ evs) →
      (runU MAX evs).outcomes.length = 1) := by
  have hinv : UInv (runU MAX evs) :=
    foldl_stepU_UInv MAX evs initU ⟨by simp [initU], by simp [initU]⟩
  obtain ⟨h1, h2⟩ := hinv
  refine ⟨?_, ?_, ?_⟩
  · rw [h1]; split <;> omega
  · rw [h1] at h2; revert h2; split <;> omega
  · intro hf
    rw [h1, runU_finished_of_finalizer MAX evs hf]
    rfl

/-- Witness for C2 at a concrete session: an upload whose only event is
`end` produces exactly one outcome. -/
theorem C2_upload_finalization_guard_witness :
    (runU 100 [UEv.endE]).outcomes.length = 1 :=
  (C2_upload_finalization_guard 100 [UEv.endE]).2.2 (Or.inl (by decide))

/-- Claim C3: for every download session that has generated all its bytes
(`remaining = 0`), the chunks written are exactly the decomposition of the
requested size into `min(64KiB, remaining)` pieces, their lengths sum to the
size declared up front in the `Content-Length` header, and every chunk is
between 1 byte and 64 KiB. -/
theorem C3_download_completes_declared_length (size : Nat) (oracle : List Bool)
    (evs : List DEv) (h : (runD size oracle evs).remaining = 0) :
    (runD size oracle evs).chunks = chunkList size ∧
    (runD size oracle evs).chunks.sum = size ∧
    (runD size oracle evs).total = size ∧
    (∀ c ∈ (runD size oracle evs).chunks, 1 ≤ c ∧ c ≤ CHUNK) := by
  have hci := runD_ChunkInv size oracle evs
  have ht := runD_total size oracle evs
  unfold ChunkInv at hci
  rw [h, chunkList_zero, List.append_nil, ht] at hci
  refine ⟨hci, ?_, ht, ?_⟩
  · rw [hci, chunkList_sum]
  · intro c hc
    rw [hci] at hc
    exact chunkList_mem size c hc

/-- Witness for C3 at a concrete session: a 3-byte download with no
saturation completes synchronously. -/
theorem C3_download_completes_declared_length_witness :
    (runD 3 [] []).chunks = chunkList 3 ∧
    (runD 3 [] []).chunks.sum = 3 ∧
    (runD 3 [] []).total = 3 ∧
    (∀ c ∈ (runD 3 [] []).chunks, 1 ≤ c ∧ c ≤ CHUNK) :=
  C3_download_completes_declared_length 3 [] []
    (by simp [runD, writeMore, initD, endOnce, resEnd, CHUNK])

set_option maxRecDepth 10000 in
/-- Counterexample to claim C4 as originally stated: a 310-digit request is
numeric, positive, and far exceeds the maximum, yet it is not clamped down to
`MAX_DOWNLOAD` — `parseInt` overflows to `Infinity`, which the
`!Number.isFinite(size)` test of line 43 sends to `DEFAULT_SIZE` (here the
built-in 10 MiB default and 100 MiB maximum). -/
theorem C4_counterexample_overflow_query :
    jsParseInt "9999999999999999999999999999999999999999999999999999999999999999999999999999999999999999999999999999999999999999999999999999999999999999999999999999999999999999999999999999999999999999999999999999999999999999999999999999999999999999999999999999999999999999999999999999999999999999999999999999999999999999999999" = JsNum.posInf ∧
    resolveDownloadSize (some "9999999999999999999999999999999999999999999999999999999999999999999999999999999999999999999999999999999999999999999999999999999999999999999999999999999999999999999999999999999999999999999999999999999999999999999999999999999999999999999999999999999999999999999999999999999999999999999999999999999999999999999999")
      10485760 104857600 = 10485760 ∧
    resolveDownloadSize (some "9999999999999999999999999999999999999999999999999999999999999999999999999999999999999999999999999999999999999999999999999999999999999999999999999999999999999999999999999999999999999999999999999999999999999999999999999999999999999999999999999999999999999999999999999999999999999999999999999999999999999999999999")
      10485760 104857600 ≠ 104857600 := by decide

/-- Claim C4 (amended): with a positive configured default not exceeding the
positive configured maximum, and the maximum below `2^53` (where doubles are
exact, as the built-in 100 MiB is), the resolved download size always
satisfies `1 ≤ effectiveSize ≤ MAXD`; it equals `DEFAULT` when the raw
request is absent, non-numeric (`NaN`), overflowing (`±Infinity`), zero or
negative; it equals the parsed value when that is a finite positive value
within the maximum; and it is clamped down to `MAXD` (never adjusted upward)
when the parsed value is finite and exceeds the maximum. -/
theorem C4_download_size_resolution
    (DEFAULT MAXD : Int) (q : Option String)
    (hD : 0 < DEFAULT) (hM : 0 < MAXD) (hDM : DEFAULT ≤ MAXD)
    (hM53 : MAXD < 2 ^ 53) :
    1 ≤ resolveDownloadSize q DEFAULT MAXD ∧
    resolveDownloadSize q DEFAULT MAXD ≤ MAXD ∧
    (q = none → resolveDownloadSize q DEFAULT MAXD = DEFAULT) ∧
    ((jsParseInt (q.getD "") = JsNum.nan ∨
      jsParseInt (q.getD "") = JsNum.posInf ∨
      jsParseInt (q.getD "") = JsNum.negInf ∨
      (∃ n, jsParseInt (q.getD "") = JsNum.int n ∧ n ≤ 0)) →
      resolveDownloadSize q DEFAULT MAXD = DEFAULT) ∧
    (∀ n : Int, jsParseInt (q.getD "") = JsNum.int n → 0 < n → n ≤ MAXD →
      resolveDownloadSize q DEFAULT MAXD = n) ∧
    (∀ n : Int, jsParseInt (q.getD "") = JsNum.int n → MAXD < n →
      resolveDownloadSize q DEFAULT MAXD = MAXD) := by
  unfold resolveDownloadSize
  cases h : jsParseInt (q.getD "") with
  | nan =>
      simp only [h]
      refine ⟨?_, ?_, ?_, ?_, ?_, ?_⟩
      · split <;> omega
      · split <;> omega
      · intro _; split <;> omega
      · intro _; split <;> omega
      · intro m hm; exact JsNum.noConfusion hm
      · intro m hm; exact JsNum.noConfusion hm
  | posInf =>
      simp only [h]
      refine ⟨?_, ?_, ?_, ?_, ?_, ?_⟩
      · split <;> omega
      · split <;> omega
      · intro _; split <;> omega
      · intro _; split <;> omega
      · intro m hm; exact JsNum.noConfusion hm
      · intro m hm; exact JsNum.noConfusion hm
  | negInf =>
      simp only [h]
      refine ⟨?_, ?_, ?_, ?_, ?_, ?_⟩
      · split <;> omega
      · split <;> omega
      · intro _; split <;> omega
      · intro _; split <;> omega
      · intro m hm; exact JsNum.noConfusion hm
      · intro m hm; exact JsNum.noConfusion hm
  | int n =>
      simp only [h, JsNum.int.injEq]
      by_cases hn : n ≤ 0 <;> simp only [hn, reduceIte]
      · refine ⟨?_, ?_, ?_, ?_, ?_, ?_⟩
        · split <;> omega
        · split <;> omega
        · intro _; split <;> omega
        · intro _; split <;> omega
        · intro m hm hm0 _; exfalso; omega
        · intro m hm hmM; exfalso; omega
      · refine ⟨?_, ?_, ?_, ?_, ?_, ?_⟩
        · split <;> omega
        · split <;> omega
        · intro hq
          subst hq
          simp only [Option.getD_none] at h
          have h0 : jsParseInt "" = JsNum.nan := by decide
          rw [h0] at h
          exact JsNum.noConfusion h
        · rintro (hc | hc | hc | ⟨m, hm, hm0⟩)
          · exact JsNum.noConfusion hc
          · exact JsNum.noConfusion hc
          · exact JsNum.noConfusion hc
          · exfalso; omega
        · intro m hm hm0 hmM; split <;> omega
        · intro m hm hmM; split <;> omega

set_option maxRecDepth 10000 in
/-- Witness for C4 (amended) with the built-in configuration (10 MiB
default, 100 MiB maximum) and the request `size=0`, which resolves to the
default. -/
theorem C4_download_size_resolution_witness :
    1 ≤ resolveDownloadSize (some "0") 10485760 104857600 ∧
    resolveDownloadSize (some "0") 10485760 104857600 = 10485760 := by
  have h := C4_download_size_resolution 10485760 104857600 (some "0")
    (by decide) (by decide) (by decide) (by decide)
  exact ⟨h.1, h.2.2.2.1 (Or.inr (Or.inr (Or.inr ⟨0, by decide, le_refl 0⟩)))⟩

/-- Claim C5: for every upload whose fragments sum past the ceiling, the
session ends with exactly the `Oversized` outcome: the inbound source is
paused and destroyed, the single response is `413 {message, max}`, the
violation is logged with the byte count at the breach, and the byte
accumulator stops at the first ceiling-breaching fragment, so no later
fragment is processed. -/
theorem C5_upload_ceiling_enforcement (MAX : Nat) (chunks : List Nat)
    (h : MAX < chunks.sum) :
    (runU MAX (chunks.map UEv.data)).outcomes = [UOut.oversized] ∧
    (runU MAX (chunks.map UEv.data)).responses = [UResp.r413 MAX] ∧
    (runU MAX (chunks.map UEv.data)).paused = true ∧
    (runU MAX (chunks.map UEv.data)).destroyed = true ∧
    (runU MAX (chunks.map UEv.data)).finished = true ∧
    (runU MAX (chunks.map UEv.data)).bytes = firstBreach MAX 0 chunks ∧
    (runU MAX (chunks.map UEv.data)).log =
      [ULog.startL, ULog.tooLargeL (firstBreach MAX 0 chunks)] := by
  have hrun := runData_breach MAX chunks initU rfl rfl rfl (Nat.zero_le MAX)
    (by simpa [initU] using h)
  unfold runU
  rw [hrun]
  simp [initU]

/-- Witness for C5 at a concrete session: ceiling 10, fragments of 6 and 6
bytes. -/
theorem C5_upload_ceiling_enforcement_witness :
    (runU 10 ([6, 6].map UEv.data)).outcomes = [UOut.oversized] ∧
    (runU 10 ([6, 6].map UEv.data)).responses = [UResp.r413 10] ∧
    (runU 10 ([6, 6].map UEv.data)).paused = true ∧
    (runU 10 ([6, 6].map UEv.data)).destroyed = true ∧
    (runU 10 ([6, 6].map UEv.data)).finished = true ∧
    (runU 10 ([6, 6].map UEv.data)).bytes = firstBreach 10 0 [6, 6] ∧
    (runU 10 ([6, 6].map UEv.data)).log =
      [ULog.startL, ULog.tooLargeL (firstBreach 10 0 [6, 6])] :=
  C5_upload_ceiling_enforcement 10 [6, 6] (by decide)

/-- Claim C6: for every upload whose fragments sum to at most the ceiling and
whose stream then signals natural end-of-data, the terminal outcome is
`Completed` with a single `200 {bytes, millis}` response whose `bytes` equals
the exact number of bytes received, and the byte accumulator is monotonically
non-decreasing across every event. -/
theorem C6_upload_completion_reports_bytes (MAX : Nat) (chunks : List Nat)
    (h : chunks.sum ≤ MAX) :
    (runU MAX (chunks.map UEv.data ++ [UEv.endE])).outcomes = [UOut.completed] ∧
    (runU MAX (chunks.map UEv.data ++ [UEv.endE])).responses = [UResp.r200 chunks.sum] ∧
    (runU MAX (chunks.map UEv.data ++ [UEv.endE])).bytes = chunks.sum ∧
    (∀ (s : UState) (e : UEv), s.bytes ≤ (stepU MAX s e).bytes) := by
  have hrun : runU MAX (chunks.map UEv.data ++ [UEv.endE]) =
      stepU MAX { initU with bytes := chunks.sum } UEv.endE := by
    unfold runU
    rw [List.foldl_append]
    rw [runData_clean MAX chunks initU rfl rfl (by simpa [initU] using h)]
    simp [initU]
  rw [hrun]
  refine ⟨?_, ?_, ?_, fun s e => stepU_bytes_mono MAX s e⟩ <;>
    simp [stepU, finishOnce, initU]

/-- Witness for C6 at a concrete session: ceiling 100, fragments of 30 and
40 bytes, then `end`. -/
theorem C6_upload_completion_reports_bytes_witness :
    (runU 100 ([30, 40].map UEv.data ++ [UEv.endE])).outcomes = [UOut.completed] ∧
    (runU 100 ([30, 40].map UEv.data ++ [UEv.endE])).responses =
      [UResp.r200 (List.sum [30, 40])] ∧
    (runU 100 ([30, 40].map UEv.data ++ [UEv.endE])).bytes = List.sum [30, 40] :=
  have h := C6_upload_completion_reports_bytes 100 [30, 40] (by decide)
  ⟨h.1, h.2.1, h.2.2.1⟩

/-- Claim C7: for every upload whose fragments exceed the ceiling, the
fragment list splits as `pre ++ breaching :: rest` where `pre` alone stays
within the ceiling, the terminal state is `Oversized`, the accounted byte
total at finalization is exactly the pre-breach total plus the breaching
fragment's length (so no fragment beyond the breaching one is accounted),
and the inbound source is destroyed, receiving no further fragments. -/
theorem C7_upload_oversized_accounting (MAX : Nat) (chunks : List Nat)
    (h : MAX < chunks.sum) :
    ∃ pre c rest, chunks = pre ++ c :: rest ∧
      pre.sum ≤ MAX ∧ MAX < pre.sum + c ∧
      (runU MAX (chunks.map UEv.data)).bytes = pre.sum + c ∧
      (runU MAX (chunks.map UEv.data)).outcomes = [UOut.oversized] ∧
      (runU MAX (chunks.map UEv.data)).destroyed = true := by
  obtain ⟨pre, c, rest, hsplit, h1, h2, h3⟩ :=
    firstBreach_decomp MAX chunks 0 (Nat.zero_le MAX) (by omega)
  have hrun := runData_breach MAX chunks initU rfl rfl rfl (Nat.zero_le MAX)
    (by simpa [initU] using h)
  unfold runU
  rw [hrun]
  refine ⟨pre, c, rest, hsplit, by omega, by omega, ?_, ?_, ?_⟩ <;> simp [initU]
  omega

/-- Witness for C7 at a concrete session: ceiling 10, fragments of 6 and 6
bytes. -/
theorem C7_upload_oversized_accounting_witness :
    ∃ pre c rest, ([6, 6] : List Nat) = pre ++ c :: rest ∧
      pre.sum ≤ 10 ∧ 10 < pre.sum + c ∧
      (runU 10 ([6, 6].map UEv.data)).bytes = pre.sum + c ∧
      (runU 10 ([6, 6].map UEv.data)).outcomes = [UOut.oversized] ∧
      (runU 10 ([6, 6].map UEv.data)).destroyed = true :=
  C7_upload_oversized_accounting 10 [6, 6] (by decide)

/-- Claim C8: in the download write loop, no handler other than `drain`
ever generates a chunk; whenever `writeMore` ends saturated, it wrote chunks
for exactly the successful writes plus the single saturating one (the oracle
prefix it consumed is some `true`s followed by one `false`, with one chunk
per entry), so no chunk is generated past an unacknowledged write until the
one-shot drain notification resumes the loop; and a `drain` event with no
registered handler is a no-op. -/
theorem C8_download_flow_control :
    (∀ (s : DState) (e : DEv), e ≠ DEv.drain → (stepD s e).chunks = s.chunks) ∧
    (∀ s : DState, s.awaitingDrain = false → (writeMore s).awaitingDrain = true →
      ∃ k, (writeMore s).chunks.length = s.chunks.length + (k + 1) ∧
        s.oracle.take (k + 1) = List.replicate k true ++ [false]) ∧
    (∀ s : DState, s.awaitingDrain = false → stepD s DEv.drain = s) := by
  refine ⟨?_, fun s => writeMore_saturation s, ?_⟩
  · intro s e he
    cases e with
    | finish => exact (endOnce_fields s).1
    | abortedE => exact (abortOnce_fields s).1
    | close =>
        simp only [stepD]
        split
        · exact (abortOnce_fields s).1
        · rfl
    | errorE => exact (abortOnce_fields _).1
    | drain => exact absurd rfl he
  · intro s hnd
    simp only [stepD, hnd]
    rfl

/-- Witness for C8 at concrete states: a non-drain event generates no chunk,
a 100-byte download over a saturated sink stops after the saturating write,
and a spurious drain is a no-op. -/
theorem C8_download_flow_control_witness :
    (stepD (initD 5 []) DEv.finish).chunks = (initD 5 []).chunks ∧
    (∃ k, (writeMore (initD 100 [false])).chunks.length =
        (initD 100 [false]).chunks.length + (k + 1) ∧
      (initD 100 [false]).oracle.take (k + 1) = List.replicate k true ++ [false]) ∧
    stepD (initD 5 []) DEv.drain = initD 5 [] :=
  ⟨C8_download_flow_control.1 (initD 5 []) DEv.finish (by decide),
   C8_download_flow_control.2.1 (initD 100 [false]) rfl
     (by simp [writeMore, initD, CHUNK]),
   C8_download_flow_control.2.2 (initD 5 []) rfl⟩

/-- Claim C9: once a download session has generated all its chunks
(`remaining = 0`) or the response stream has ended (`writableEnded`), a
subsequent `aborted`, `close`, or `error` event never causes an Aborted
transition — the ended flag and the terminal log lines are unchanged — while
the `finish` path can still complete the session; the effective tie-break
between finish and a late error is finish-wins, abort-suppressed. -/
theorem C9_download_abort_suppressed_after_completion (s : DState) (e : DEv)
    (hdone : s.remaining = 0 ∨ s.writableEnded = true) :
    ((e = DEv.abortedE ∨ e = DEv.close ∨ e = DEv.errorE) →
      (stepD s e).ended = s.ended ∧
      (stepD s e).log.filter isTerminalD = s.log.filter isTerminalD) ∧
    (s.ended = false →
      (stepD s DEv.finish).ended = true ∧
      (stepD s DEv.finish).log = s.log ++ [DLog.endL]) := by
  constructor
  · rintro (rfl | rfl | rfl)
    · show (abortOnce s).ended = s.ended ∧
        (abortOnce s).log.filter isTerminalD = s.log.filter isTerminalD
      rw [abortOnce_noop s hdone]
      exact ⟨rfl, rfl⟩
    · simp only [stepD]
      split
      · rw [abortOnce_noop s hdone]
        exact ⟨rfl, rfl⟩
      · exact ⟨rfl, rfl⟩
    · show (abortOnce { s with log := s.log ++ [DLog.errorL] }).ended = s.ended ∧
        (abortOnce { s with log := s.log ++ [DLog.errorL] }).log.filter isTerminalD =
          s.log.filter isTerminalD
      rw [abortOnce_noop { s with log := s.log ++ [DLog.errorL] } hdone]
      refine ⟨rfl, ?_⟩
      show (s.log ++ [DLog.errorL]).filter isTerminalD = s.log.filter isTerminalD
      rw [List.filter_append]
      simp [isTerminalD]
  · intro hne
    show (endOnce s).ended = true ∧ (endOnce s).log = s.log ++ [DLog.endL]
    unfold endOnce
    rw [if_neg (by simp [hne])]
    exact ⟨rfl, rfl⟩

/-- Witness for C9 at a concrete state: a fresh zero-byte session suppresses
a peer abort but still completes on finish. -/
theorem C9_download_abort_suppressed_after_completion_witness :
    (stepD (initD 0 []) DEv.abortedE).ended = (initD 0 []).ended ∧
    (stepD (initD 0 []) DEv.abortedE).log.filter isTerminalD =
      (initD 0 []).log.filter isTerminalD ∧
    (stepD (initD 0 []) DEv.finish).ended = true := by
  have h := C9_download_abort_suppressed_after_completion (initD 0 []) DEv.abortedE
    (Or.inl rfl)
  exact ⟨(h.1 (Or.inl rfl)).1, (h.1 (Or.inl rfl)).2, (h.2 rfl).1⟩

set_option maxRecDepth 10000 in
/-- Claim C10: a size value consisting of a valid base-10 integer followed
by other characters — such as `12abc` or `3.9` — is not treated as
non-numeric: both the query-parameter resolution and the environment-variable
resolution use parseInt's longest-digit-prefix semantics and resolve it to
its leading integer rather than falling back to the default. -/
theorem C10_parseInt_prefix_semantics :
    jsParseInt "12abc" = JsNum.int 12 ∧ jsParseInt "3.9" = JsNum.int 3 ∧
    resolveDownloadSize (some "12abc") 10485760 104857600 = 12 ∧
    resolveDownloadSize (some "3.9") 10485760 104857600 = 3 ∧
    envInt (some "12abc") 10485760 = 12 ∧
    envInt (some "3.9") 10485760 = 3 := by decide

end Speed
